import Mathlib

/-!
Verification development for the return-and-projection computation core of
`src/h.py` (a Streamlit multi-stock backtesting script).

The embedding models the pandas operations the script performs on daily close
prices.  Prices are exact rationals (`ℚ`); a pandas `NaN` cell is `none`.
Dates are integers; the tables handled by the script are indexed by strictly
increasing dates, and every concrete input below uses ascending dates.
-/

set_option autoImplicit false

namespace Backtest

/-- A pivoted close-price table: one row per date, one `Option ℚ` cell per
symbol column (`none` models a pandas `NaN`). -/
abbrev Table := List (ℤ × List (Option ℚ))

/-- Forward-fill of one cell: a present value wins, a missing one inherits the
previous column value (one step of `DataFrame.ffill`). -/
def fillCell (l c : Option ℚ) : Option ℚ :=
  match c with
  | some v => some v
  | none => l

/-- Forward-fill of the remaining rows, given the previous, already filled row. -/
def ffillAux (prev : List (Option ℚ)) : Table → Table
  | [] => []
  | (d, r) :: rest =>
    (d, List.zipWith fillCell prev r) :: ffillAux (List.zipWith fillCell prev r) rest

/-- Column-wise `close_prices.ffill()` (line 143 of `src/h.py`): the first row
is kept as is, later rows inherit the previous row's value where missing. -/
def ffillT : Table → Table
  | [] => []
  | (d, r) :: rest => (d, r) :: ffillAux r rest

/-- Row-wise `.dropna()` (line 143): drop every row that still has a missing cell. -/
def dropnaT (t : Table) : Table :=
  t.filter (fun p => p.2.all Option.isSome)

/-- One cell of `DataFrame.pct_change`: `cur / prev - 1`, with `NaN` propagating. -/
def pctCell (a b : Option ℚ) : Option ℚ :=
  match a, b with
  | some x, some y => some (y / x - 1)
  | _, _ => none

/-- Percentage change of the remaining rows against the previous raw row. -/
def pctAux (prev : List (Option ℚ)) : Table → Table
  | [] => []
  | (d, r) :: rest => (d, List.zipWith pctCell prev r) :: pctAux r rest

/-- Table-wise `close_prices.pct_change()` (line 150): the first row is all `NaN`. -/
def pctT : Table → Table
  | [] => []
  | (d, r) :: rest => (d, r.map (fun _ => (none : Option ℚ))) :: pctAux r rest

/-- Row mean ignoring `NaN` cells (`DataFrame.mean(axis=1)` semantics); the
mean of an all-`NaN` row is `NaN`. -/
def rowMean (r : List (Option ℚ)) : Option ℚ :=
  let vs := r.filterMap id
  if vs.isEmpty then none else some (vs.sum / (vs.length : ℚ))

/-- Line 153: `portfolio_returns = returns.mean(axis=1)`. -/
def meanRows (t : Table) : List (ℤ × Option ℚ) :=
  t.map (fun p => (p.1, rowMean p.2))

/-- Percentage change of a plain series, against the previous value. -/
def pctSeriesAux (prev : ℚ) : List (ℤ × ℚ) → List (ℤ × Option ℚ)
  | [] => []
  | (d, v) :: rest => (d, some (v / prev - 1)) :: pctSeriesAux v rest

/-- Line 164: `Series.pct_change` for the benchmark close series; the first
value is `NaN`. -/
def pctSeries : List (ℤ × ℚ) → List (ℤ × Option ℚ)
  | [] => []
  | (d, v) :: rest => (d, none) :: pctSeriesAux v rest

/-- Lines 171-173: restriction to `combined_index`, the intersection of the two
date indexes — keep exactly the dates that also occur in the other series. -/
def alignTo (other self : List (ℤ × Option ℚ)) : List (ℤ × Option ℚ) :=
  self.filter (fun p => other.any (fun q => decide (q.1 = p.1)))

/-- Lines 176-177: `.fillna(0)`. -/
def fillna0 (s : List (ℤ × Option ℚ)) : List (ℤ × ℚ) :=
  s.map (fun p => (p.1, p.2.getD 0))

/-- Lines 187-188: `(1 + r).cumprod() - 1`, with running product `acc`. -/
def cumretAux (acc : ℚ) : List (ℤ × ℚ) → List (ℤ × ℚ)
  | [] => []
  | (d, r) :: rest => (d, acc * (1 + r) - 1) :: cumretAux (acc * (1 + r)) rest

/-- Cumulative returns compounded from a daily-return series (lines 187-188). -/
def cumret (s : List (ℤ × ℚ)) : List (ℤ × ℚ) := cumretAux 1 s

/-- Lines 141-188 of `src/h.py`: the whole return engine.  From a pivoted close
table and the raw benchmark close series, produce the pair (portfolio
cumulative returns, benchmark cumulative returns). -/
def portfolioPipeline (close : Table) (bench : List (ℤ × ℚ)) :
    List (ℤ × ℚ) × List (ℤ × ℚ) :=
  let processed := dropnaT (ffillT close)
  let pr := meanRows (pctT processed)
  let br := pctSeries bench
  (cumret (fillna0 (alignTo br pr)), cumret (fillna0 (alignTo pr br)))

/-- One (Date, Symbol, Close) record of the concatenated frame (line 90);
symbols are numbered by their position in the fetched list. -/
abbrev Row := ℤ × ℕ × ℚ

/-- Cell lookup of a table by date and column. -/
def getCell (t : Table) (d : ℤ) (s : ℕ) : Option ℚ :=
  match t.find? (fun p => decide (p.1 = d)) with
  | some p => p.2.getD s none
  | none => none

/-- The all-`NaN` table over a given date index and column count. -/
def emptyTable (dates : List ℤ) (w : ℕ) : Table :=
  dates.map (fun d => (d, List.replicate w none))

/-- Overwrite one cell of a table. -/
def setCell (t : Table) (d : ℤ) (s : ℕ) (v : ℚ) : Table :=
  t.map (fun p => if p.1 = d then (p.1, p.2.set s (some v)) else p)

/-- Line 121: `pivot_table(index='Date', columns='Symbol', values='Close',
aggfunc='last')` — later records for the same (date, symbol) pair overwrite
earlier ones.  The plain `pivot` of line 124 agrees with this whenever there
are no duplicate pairs. -/
def pivotLast (dates : List ℤ) (w : ℕ) (rows : List Row) : Table :=
  rows.foldl (fun t r => setCell t r.1 r.2.1 r.2.2) (emptyTable dates w)

/-- The (Date, Symbol) key of one record. -/
def keyOf (r : Row) : ℤ × ℕ := (r.1, r.2.1)

/-- Line 117: `duplicated(subset=['Date', 'Symbol'], keep=False).any()`. -/
def hasDupKey (rows : List Row) : Bool :=
  rows.any (fun r =>
    decide (2 ≤ (rows.filter (fun r2 => decide (r2.1 = r.1 ∧ r2.2.1 = r.2.1))).length))

/-- Lines 116-124: warn and aggregate with `'last'` when duplicate
(Date, Symbol) pairs exist, plain pivot otherwise (identical to the `'last'`
aggregation in that case). -/
def buildCloseTable (dates : List ℤ) (w : ℕ) (rows : List Row) :
    List String × Table :=
  (if hasDupKey rows then ["DuplicateDateSymbol"] else [], pivotLast dates w rows)

/-- The close of the last record carrying a given (date, symbol) pair. -/
def lastClose (rows : List Row) (d : ℤ) (s : ℕ) : Option ℚ :=
  ((rows.filter (fun r => decide (r.1 = d ∧ r.2.1 = s))).getLast?).map
    (fun r => r.2.2)

/-- Result of `fetch_stock_data` (lines 24-35): `none` models both the
empty-download path and the exception path — in either case a warning/error is
emitted and no frame is returned. -/
abbrev FetchResult := Option (List (ℤ × ℚ))

/-- Lines 78-87: fetch each symbol independently, drop failed symbols with a
warning each and keep going; the whole invocation fails only when no symbol at
all produced data. -/
def loadPortfolio (results : List FetchResult) :
    List String × Except String (List (List (ℤ × ℚ))) :=
  (results.filterMap (fun r => if r.isNone then some "SymbolDataMissing" else none),
   if (results.filterMap id).isEmpty then Except.error "DataUnavailable"
   else Except.ok (results.filterMap id))

/-- Tag each surviving symbol's rows with its position (the `'Symbol'` column
added on line 30) and concatenate everything (`pd.concat`, line 90). -/
def tagRows (datas : List (List (ℤ × ℚ))) : List Row :=
  (datas.enum.map (fun p => p.2.map (fun q => (q.1, p.1, q.2)))).flatten

/-- Insertion into a sorted duplicate-free list of dates. -/
def insertSorted (d : ℤ) : List ℤ → List ℤ
  | [] => [d]
  | a :: rest =>
    if d < a then d :: a :: rest
    else if d = a then a :: rest
    else a :: insertSorted d rest

/-- Sorted duplicate-free date index, as the pandas pivot builds it. -/
def sortDedup (l : List ℤ) : List ℤ := l.foldr insertSorted []

/-- Observable outcome of one button-triggered run: the error/warning messages
shown, and the computed (portfolio, benchmark) cumulative-return series when
the computation was reached. -/
structure AppOutcome where
  errors : List String
  backtest : Option (List (ℤ × ℚ) × List (ℤ × ℚ))
deriving DecidableEq

/-- Top level of one button-triggered run (lines 59-293).  The `start > end`
check of lines 59-60 only displays an error message — nothing stops the later
computation, which depends on the fetched data alone. -/
def runApp (startD endD : ℤ) (fetches : List FetchResult)
    (bench : FetchResult) : AppOutcome :=
  let rangeErrs := if endD < startD then ["InvalidRange"] else []
  match loadPortfolio fetches with
  | (ws, Except.error e) => ⟨rangeErrs ++ ws ++ [e], none⟩
  | (ws, Except.ok datas) =>
    let rows := tagRows datas
    let res := buildCloseTable (sortDedup (rows.map Prod.fst)) datas.length rows
    match bench with
    | none => ⟨rangeErrs ++ ws ++ res.1 ++ ["BenchUnavailable"], none⟩
    | some bser => ⟨rangeErrs ++ ws ++ res.1, some (portfolioPipeline res.2 bser)⟩

/-- A fully populated close table, as the spec's PriceTable invariant demands. -/
def denseTable (t : List (ℤ × List ℚ)) : Table :=
  t.map (fun p => (p.1, p.2.map some))

/-- A one-symbol close table built from a plain price series. -/
def onecolT (l : List (ℤ × ℚ)) : Table :=
  l.map (fun p => (p.1, [some p.2]))

/-- Simple per-symbol returns between two consecutive rows of prices. -/
def ratios (prev cur : List ℚ) : List ℚ :=
  List.zipWith (fun a b => b / a - 1) prev cur

/-- Arithmetic mean of a list of rationals. -/
def meanList (l : List ℚ) : ℚ := l.sum / (l.length : ℚ)

/-- Equal-weight mean of the per-symbol day-over-day returns, for the rows
after the first one. -/
def dayMeansAux (prev : List ℚ) : List (List ℚ) → List ℚ
  | [] => []
  | cur :: rest => meanList (ratios prev cur) :: dayMeansAux cur rest

/-- Equal-weight mean of the per-symbol day-over-day returns, `0` on day 0. -/
def dayMeans : List (List ℚ) → List ℚ
  | [] => []
  | r :: rest => 0 :: dayMeansAux r rest

/-- Dated mean-return series for the rows after the first one. -/
def retsAux (prev : List ℚ) : List (ℤ × List ℚ) → List (ℤ × ℚ)
  | [] => []
  | (d, cur) :: rest => (d, meanList (ratios prev cur)) :: retsAux cur rest

/-- Dated mean-return series of a dense close table: `0` at the first date,
then the equal-weight mean of the per-symbol daily returns. -/
def retList : List (ℤ × List ℚ) → List (ℤ × ℚ)
  | [] => []
  | (d, r) :: rest => (d, 0) :: retsAux r rest

/-- Column `j` of a table, as the list of its cells. -/
def colAt (t : Table) (j : ℕ) : List (Option ℚ) :=
  t.map (fun p => p.2.getD j none)

/-- Cell of a table by row and column position. -/
def cellAt (t : Table) (i j : ℕ) : Option ℚ :=
  (t.getD i (0, [])).2.getD j none

/-- Last known value of a column segment, with a fallback for an all-`NaN`
segment. -/
def lastKnown (dflt : Option ℚ) : List (Option ℚ) → Option ℚ
  | [] => dflt
  | a :: rest => lastKnown (fillCell dflt a) rest

/-- Modelled from the spec: `src/h.py` holds no Projection Engine (only other
variants of the repository do), so `§4.3`'s per-period total value is taken
from the spec's formulas: `FV_initial(i) + FV_contrib(i)`, with the zero-rate
branch handled internally. -/
def fvTotal (initial pc r : ℚ) (i : ℕ) : ℚ :=
  initial * (1 + r) ^ i +
    (if r = 0 then pc * (i : ℚ) else pc * (((1 + r) ^ i - 1) / r))

/-- Modelled from the spec: `§4.3`'s `project` — for each period index
`0 ≤ i ≤ n`, the triple (index, principal contributed, total value), with the
per-period rate `annual_rate / periods_per_year`. -/
def project (initial pc annualRate : ℚ) (ppy : ℕ) (n : ℕ) :
    List (ℕ × ℚ × ℚ) :=
  (List.range (n + 1)).map
    (fun i => (i, initial + pc * (i : ℚ), fvTotal initial pc (annualRate / (ppy : ℚ)) i))

/-- Python `.replace('，', ',')` of line 68, at the character level. -/
def replComma (c : Char) : Char := if c = '，' then ',' else c

/-- Python `str.split(sep)` for a one-character separator: split at every
occurrence, keeping empty fields. -/
def splitChar (c : Char) : List Char → List (List Char)
  | [] => [[]]
  | a :: rest =>
    match splitChar c rest with
    | [] => [[]]
    | h :: t => if a = c then [] :: h :: t else (a :: h) :: t

/-- Whitespace test used by Python `str.strip()`. -/
def isSpaceChar (c : Char) : Bool := c.isWhitespace

/-- Python `str.strip()`: drop whitespace at both ends. -/
def trimChars (l : List Char) : List Char :=
  ((l.dropWhile isSpaceChar).reverse.dropWhile isSpaceChar).reverse

/-- Line 68 of `src/h.py`: replace full-width commas, split on `','`, strip
each field and append `".TW"`. -/
def symbolsList (input : List Char) : List (List Char) :=
  (splitChar ',' (input.map replComma)).map (fun f => trimChars f ++ ".TW".toList)

/-- The spec's words (§6): each entry trimmed AND uppercased, then
venue-qualified.  Written for comparison with `symbolsList`. -/
def symbolsListSpec (input : List Char) : List (List Char) :=
  (splitChar ',' (input.map replComma)).map
    (fun f => (trimChars f).map Char.toUpper ++ ".TW".toList)

/-- Join fields with a single-character separator (the inverse of `splitChar`
on separator-free fields). -/
def joinWith (c : Char) : List (List Char) → List Char
  | [] => []
  | [f] => f
  | f :: g :: rest => f ++ c :: joinWith c (g :: rest)

/-! ### Basic lemmas about the embedded pandas operations -/

theorem fillCell_none_right (l : Option ℚ) : fillCell l none = l := rfl

theorem fillCell_none_left (c : Option ℚ) : fillCell none c = c := by
  cases c <;> rfl

theorem zipWith_fillCell_some :
    ∀ (r : List ℚ) (l : List (Option ℚ)), r.length ≤ l.length →
      List.zipWith fillCell l (r.map some) = r.map some
  | [], _, _ => by simp
  | _ :: _, [], h => by simp at h
  | a :: r, b :: l, h => by
    simp only [List.map_cons, List.zipWith_cons_cons, fillCell]
    exact congrArg _ (zipWith_fillCell_some r l (Nat.le_of_succ_le_succ (by simpa using h)))

theorem denseTable_fst (t : List (ℤ × List ℚ)) :
    (denseTable t).map Prod.fst = t.map Prod.fst := by
  simp [denseTable]

theorem ffillAux_dense (w : ℕ) :
    ∀ (rest : List (ℤ × List ℚ)) (prev : List (Option ℚ)), prev.length = w →
      (∀ p ∈ rest, p.2.length = w) →
      ffillAux prev (denseTable rest) = denseTable rest
  | [], _, _, _ => rfl
  | (d, r) :: rest, prev, hp, hw => by
    have hr : r.length = w := hw (d, r) (List.mem_cons_self _ _)
    have hfill : List.zipWith fillCell prev (r.map some) = r.map some :=
      zipWith_fillCell_some r prev (by rw [hr, hp])
    simp only [denseTable, List.map_cons, ffillAux, hfill]
    exact congrArg _
      (ffillAux_dense w rest (r.map some) (by simpa using hr)
        (fun p hp2 => hw p (List.mem_cons_of_mem _ hp2)))

theorem ffill_dense (t : List (ℤ × List ℚ)) (w : ℕ)
    (hw : ∀ r ∈ t, r.2.length = w) :
    ffillT (denseTable t) = denseTable t := by
  cases t with
  | nil => rfl
  | cons p rest =>
    obtain ⟨d, r⟩ := p
    have hr : r.length = w := hw (d, r) (List.mem_cons_self _ _)
    simp only [denseTable, List.map_cons, ffillT]
    exact congrArg _
      (ffillAux_dense w rest (r.map some) (by simpa using hr)
        (fun p hp2 => hw p (List.mem_cons_of_mem _ hp2)))

theorem dropna_dense (t : List (ℤ × List ℚ)) :
    dropnaT (denseTable t) = denseTable t := by
  rw [dropnaT, List.filter_eq_self]
  intro p hp
  rcases List.mem_map.mp hp with ⟨q, _, rfl⟩
  simp [List.all_eq_true]

theorem filterMap_const_none (r : List (Option ℚ)) :
    r.filterMap (fun _ => (none : Option ℚ)) = [] := by
  induction r <;> simp [*]

theorem rowMean_map_none (r : List (Option ℚ)) :
    rowMean (r.map (fun _ => (none : Option ℚ))) = none := by
  simp [rowMean, List.filterMap_map, Function.comp_def, filterMap_const_none]

theorem rowMean_map_some (l : List ℚ) (h : l ≠ []) :
    rowMean (l.map some) = some (meanList l) := by
  have : (l.map some).filterMap id = l := by
    simp [List.filterMap_map, Function.comp_def]
  simp [rowMean, this, meanList, h]

theorem zipWith_pctCell_some :
    ∀ (prev cur : List ℚ),
      List.zipWith pctCell (prev.map some) (cur.map some) = (ratios prev cur).map some
  | [], _ => by simp [ratios]
  | _ :: _, [] => by simp [ratios]
  | a :: prev, b :: cur => by
    simp only [List.map_cons, List.zipWith_cons_cons, pctCell, ratios]
    exact congrArg _ (zipWith_pctCell_some prev cur)

theorem ratios_length (prev cur : List ℚ) :
    (ratios prev cur).length = min prev.length cur.length := by
  simp [ratios]

theorem meanRows_pctAux_dense (w : ℕ) (hw0 : 0 < w) :
    ∀ (rest : List (ℤ × List ℚ)) (prev : List ℚ), prev.length = w →
      (∀ p ∈ rest, p.2.length = w) →
      meanRows (pctAux (prev.map some) (denseTable rest))
        = (retsAux prev rest).map (fun p => (p.1, some p.2))
  | [], _, _, _ => rfl
  | (d, cur) :: rest, prev, hp, hw => by
    have hc : cur.length = w := hw (d, cur) (List.mem_cons_self _ _)
    have hne : ratios prev cur ≠ [] := by
      apply List.ne_nil_of_length_pos
      rw [ratios_length, hp, hc]
      simpa using hw0
    simp only [denseTable, List.map_cons, pctAux, meanRows, retsAux,
      zipWith_pctCell_some, rowMean_map_some _ hne]
    exact congrArg _
      (meanRows_pctAux_dense w hw0 rest cur hc
        (fun p hp2 => hw p (List.mem_cons_of_mem _ hp2)))

theorem fillna0_someify (l : List (ℤ × ℚ)) :
    fillna0 (l.map (fun p => (p.1, some p.2))) = l := by
  simp [fillna0, List.map_map, Function.comp_def]

theorem denseTable_cons (d : ℤ) (r : List ℚ) (rest : List (ℤ × List ℚ)) :
    denseTable ((d, r) :: rest) = (d, r.map some) :: denseTable rest := rfl

theorem meanRows_cons (d : ℤ) (r : List (Option ℚ)) (rest : Table) :
    meanRows ((d, r) :: rest) = (d, rowMean r) :: meanRows rest := rfl

theorem fillna0_cons (d : ℤ) (c : Option ℚ) (rest : List (ℤ × Option ℚ)) :
    fillna0 ((d, c) :: rest) = (d, c.getD 0) :: fillna0 rest := rfl

theorem fillna0_meanRows_pctT_dense (t : List (ℤ × List ℚ)) (w : ℕ)
    (hw0 : 0 < w) (hw : ∀ r ∈ t, r.2.length = w) :
    fillna0 (meanRows (pctT (denseTable t))) = retList t := by
  cases t with
  | nil => rfl
  | cons p rest =>
    obtain ⟨d, r⟩ := p
    have hr : r.length = w := hw (d, r) (List.mem_cons_self _ _)
    have htail := meanRows_pctAux_dense w hw0 rest r hr
      (fun p hp2 => hw p (List.mem_cons_of_mem _ hp2))
    rw [denseTable_cons,
      show pctT ((d, r.map some) :: denseTable rest)
        = (d, (r.map some).map (fun _ => (none : Option ℚ)))
            :: pctAux (r.map some) (denseTable rest) from rfl,
      meanRows_cons, rowMean_map_none, htail, fillna0_cons, fillna0_someify]
    rfl

/-! ### Date-index preservation -/

theorem pctAux_fst :
    ∀ (t : Table) (prev : List (Option ℚ)),
      (pctAux prev t).map Prod.fst = t.map Prod.fst
  | [], _ => rfl
  | (d, r) :: rest, prev => by
    simp only [pctAux, List.map_cons]
    exact congrArg _ (pctAux_fst rest r)

theorem pctT_fst (t : Table) : (pctT t).map Prod.fst = t.map Prod.fst := by
  cases t with
  | nil => rfl
  | cons p rest =>
    obtain ⟨d, r⟩ := p
    simp only [pctT, List.map_cons]
    exact congrArg _ (pctAux_fst rest r)

theorem meanRows_fst (t : Table) : (meanRows t).map Prod.fst = t.map Prod.fst := by
  simp [meanRows, List.map_map, Function.comp_def]

theorem pctSeriesAux_fst :
    ∀ (b : List (ℤ × ℚ)) (prev : ℚ),
      (pctSeriesAux prev b).map Prod.fst = b.map Prod.fst
  | [], _ => rfl
  | (d, v) :: rest, prev => by
    simp only [pctSeriesAux, List.map_cons]
    exact congrArg _ (pctSeriesAux_fst rest v)

theorem pctSeries_fst (b : List (ℤ × ℚ)) :
    (pctSeries b).map Prod.fst = b.map Prod.fst := by
  cases b with
  | nil => rfl
  | cons p rest =>
    obtain ⟨d, v⟩ := p
    simp only [pctSeries, List.map_cons]
    exact congrArg _ (pctSeriesAux_fst rest v)

theorem alignTo_eq_self (other self : List (ℤ × Option ℚ))
    (h : ∀ p ∈ self, p.1 ∈ other.map Prod.fst) : alignTo other self = self := by
  rw [alignTo, List.filter_eq_self]
  intro p hp
  rcases List.mem_map.mp (h p hp) with ⟨q, hq, hq1⟩
  exact List.any_eq_true.mpr ⟨q, hq, decide_eq_true hq1⟩

theorem pipeline_dense (t : List (ℤ × List ℚ)) (b : List (ℤ × ℚ)) (w : ℕ)
    (hw0 : 0 < w) (hw : ∀ r ∈ t, r.2.length = w)
    (hd : t.map Prod.fst = b.map Prod.fst) :
    (portfolioPipeline (denseTable t) b).1 = cumret (retList t) := by
  simp only [portfolioPipeline]
  rw [ffill_dense t w hw, dropna_dense t]
  rw [alignTo_eq_self]
  · rw [fillna0_meanRows_pctT_dense t w hw0 hw]
  · intro p hp
    rw [pctSeries_fst, ← hd]
    have hmem : p.1 ∈ (meanRows (pctT (denseTable t))).map Prod.fst :=
      List.mem_map_of_mem Prod.fst hp
    rwa [meanRows_fst, pctT_fst, denseTable_fst] at hmem

/-! ### Cumulative-product formula -/

theorem cumretAux_fst :
    ∀ (s : List (ℤ × ℚ)) (acc : ℚ), (cumretAux acc s).map Prod.fst = s.map Prod.fst
  | [], _ => rfl
  | (d, r) :: rest, acc => by
    simp only [cumretAux, List.map_cons]
    exact congrArg _ (cumretAux_fst rest (acc * (1 + r)))

theorem cumretAux_length :
    ∀ (s : List (ℤ × ℚ)) (acc : ℚ), (cumretAux acc s).length = s.length
  | [], _ => rfl
  | (d, r) :: rest, acc => by
    simp only [cumretAux, List.length_cons]
    exact congrArg _ (cumretAux_length rest (acc * (1 + r)))

theorem cumretAux_getD_snd :
    ∀ (s : List (ℤ × ℚ)) (acc : ℚ) (i : ℕ), i < s.length →
      ((cumretAux acc s).getD i (0, 0)).2
        = acc * ((s.take (i + 1)).map (fun p => 1 + p.2)).prod - 1
  | [], _, i, hi => by simp at hi
  | (d, r) :: rest, acc, 0, _ => by
    simp [cumretAux, List.take_succ_cons]
  | (d, r) :: rest, acc, i + 1, hi => by
    have ih := cumretAux_getD_snd rest (acc * (1 + r)) i (by simpa using hi)
    simp only [cumretAux, List.getD_cons_succ, ih, List.take_succ_cons,
      List.map_cons, List.prod_cons]
    ring

theorem retsAux_fst :
    ∀ (rest : List (ℤ × List ℚ)) (prev : List ℚ),
      (retsAux prev rest).map Prod.fst = rest.map Prod.fst
  | [], _ => rfl
  | (d, cur) :: rest, prev => by
    simp only [retsAux, List.map_cons]
    exact congrArg _ (retsAux_fst rest cur)

theorem retList_fst (t : List (ℤ × List ℚ)) :
    (retList t).map Prod.fst = t.map Prod.fst := by
  cases t with
  | nil => rfl
  | cons p rest =>
    obtain ⟨d, r⟩ := p
    simp only [retList, List.map_cons]
    exact congrArg _ (retsAux_fst rest r)

theorem retsAux_snd :
    ∀ (rest : List (ℤ × List ℚ)) (prev : List ℚ),
      (retsAux prev rest).map Prod.snd = dayMeansAux prev (rest.map Prod.snd)
  | [], _ => rfl
  | (d, cur) :: rest, prev => by
    simp only [retsAux, List.map_cons, dayMeansAux]
    exact congrArg _ (retsAux_snd rest cur)

theorem retList_snd (t : List (ℤ × List ℚ)) :
    (retList t).map Prod.snd = dayMeans (t.map Prod.snd) := by
  cases t with
  | nil => rfl
  | cons p rest =>
    obtain ⟨d, r⟩ := p
    simp only [retList, List.map_cons, dayMeans]
    exact congrArg _ (retsAux_snd rest r)

theorem retList_length (t : List (ℤ × List ℚ)) : (retList t).length = t.length := by
  have := congrArg List.length (retList_fst t)
  simpa using this

/-! ### Claims C1 and C2: what the equal-weight combination actually is -/

/-- C1 (counterexample): the claim says the portfolio's cumulative return at
date `t` equals `mean(price t) / mean(price t0) - 1`.  On the aligned table
with prices [100, 110, 121] and [50, 50, 50] the code's value at the second
date is `1/20` (it averages per-symbol daily returns and compounds them),
while the claimed mean-price formula gives `1/15`. -/
theorem c1_mean_price_formula_refuted :
    ((portfolioPipeline
        (denseTable [((0 : ℤ), [(100 : ℚ), 50]), (1, [110, 50]), (2, [121, 50])])
        [((0 : ℤ), (1 : ℚ)), (1, 1), (2, 1)]).1.getD 1 (0, 0)).2 = 1 / 20
    ∧ meanList [(110 : ℚ), 50] / meanList [(100 : ℚ), 50] - 1 = 1 / 15
    ∧ (1 / 20 : ℚ) ≠ 1 / 15 := by
  refine ⟨?_, ?_, by norm_num⟩
  · norm_num [portfolioPipeline, denseTable, dropnaT, ffillT, ffillAux, fillCell, pctT,
      pctAux, pctCell, meanRows, rowMean, pctSeries, pctSeriesAux, alignTo, fillna0,
      cumret, cumretAux, meanList, List.filterMap, List.filter, List.zipWith]
  · norm_num [meanList]

/-- C1 (amended): `src/h.py` combines an equal-weight portfolio by averaging
the per-symbol daily returns, not the prices: over a fully populated close
table whose dates agree with the benchmark's, the portfolio's cumulative
return at index `i` is `(∏ j ≤ i, (1 + mean over symbols of day-j return)) - 1`
(the day-0 mean return being 0), and the date index is preserved. -/
theorem c1_mean_of_returns_compounded (t : List (ℤ × List ℚ)) (b : List (ℤ × ℚ))
    (w : ℕ) (hw0 : 0 < w) (hw : ∀ r ∈ t, r.2.length = w)
    (hd : t.map Prod.fst = b.map Prod.fst) :
    ((portfolioPipeline (denseTable t) b).1.map Prod.fst = t.map Prod.fst) ∧
    ∀ i, i < t.length →
      ((portfolioPipeline (denseTable t) b).1.getD i (0, 0)).2
        = (((dayMeans (t.map Prod.snd)).take (i + 1)).map (fun r => 1 + r)).prod - 1 := by
  have hp := pipeline_dense t b w hw0 hw hd
  constructor
  · rw [hp, cumret, cumretAux_fst, retList_fst]
  · intro i hi
    rw [hp, cumret, cumretAux_getD_snd _ _ _ (by rw [retList_length]; exact hi), one_mul]
    congr 1
    rw [← retList_snd, ← List.map_take, List.map_map]
    rfl

/-- Witness for C1 (amended) at the table of claim C2's example with a
same-dates constant benchmark, at index 1. -/
theorem c1_mean_of_returns_compounded_witness :
    ((portfolioPipeline
        (denseTable [((0 : ℤ), [(100 : ℚ), 50]), (1, [110, 50]), (2, [121, 50])])
        [((0 : ℤ), (1 : ℚ)), (1, 1), (2, 1)]).1.getD 1 (0, 0)).2
      = (((dayMeans ([((0 : ℤ), [(100 : ℚ), 50]), (1, [110, 50]), (2, [121, 50])].map
            Prod.snd)).take 2).map (fun r => 1 + r)).prod - 1 :=
  (c1_mean_of_returns_compounded
      [((0 : ℤ), [(100 : ℚ), 50]), (1, [110, 50]), (2, [121, 50])]
      [((0 : ℤ), (1 : ℚ)), (1, 1), (2, 1)] 2 (by norm_num)
      (by simp) (by simp)).2 1 (by norm_num)

/-- C2 (counterexample): on prices [100, 110, 121] and [50, 50, 50] (aligned
with a same-dates constant benchmark) the claimed cumulative-return values
[0.0, 0.0667, 0.14] are NOT matched within 0.001: the code produces
[0, 0.05, 0.1025]. -/
theorem c2_claimed_values_refuted :
    ¬ ((List.zip
        (((portfolioPipeline
            (denseTable [((0 : ℤ), [(100 : ℚ), 50]), (1, [110, 50]), (2, [121, 50])])
            [((0 : ℤ), (1 : ℚ)), (1, 1), (2, 1)]).1).map Prod.snd)
        [(0 : ℚ), 667 / 10000, 7 / 50]).all
      (fun p => decide (|p.1 - p.2| ≤ 1 / 1000)) = true) := by
  norm_num [portfolioPipeline, denseTable, dropnaT, ffillT, ffillAux, fillCell, pctT,
    pctAux, pctCell, meanRows, rowMean, pctSeries, pctSeriesAux, alignTo, fillna0,
    cumret, cumretAux, List.filterMap, List.filter, List.zipWith, List.zip,
    List.all, abs]

/-- C2 (amended): on the example input the code never forms a combined price
series; it averages the two symbols' daily returns ([0.1, 0] then [0.1, 0])
and compounds their means, giving cumulative returns exactly
[0, 0.05, 0.1025]. -/
theorem c2_actual_values :
    (((portfolioPipeline
        (denseTable [((0 : ℤ), [(100 : ℚ), 50]), (1, [110, 50]), (2, [121, 50])])
        [((0 : ℤ), (1 : ℚ)), (1, 1), (2, 1)]).1).map Prod.snd)
      = [0, 1 / 20, 41 / 400] := by
  norm_num [portfolioPipeline, denseTable, dropnaT, ffillT, ffillAux, fillCell, pctT,
    pctAux, pctCell, meanRows, rowMean, pctSeries, pctSeriesAux, alignTo, fillna0,
    cumret, cumretAux, List.filterMap, List.filter, List.zipWith]

/-! ### Claim C3: the value at the first aligned date -/

theorem alignTo_cons_of_headmem (other : List (ℤ × Option ℚ)) (d : ℤ) (c : Option ℚ)
    (rest : List (ℤ × Option ℚ)) (h : d ∈ other.map Prod.fst) :
    alignTo other ((d, c) :: rest) = (d, c) :: alignTo other rest := by
  rcases List.mem_map.mp h with ⟨q, hq, hq1⟩
  rw [alignTo, List.filter_cons_of_pos, ← alignTo]
  exact List.any_eq_true.mpr ⟨q, hq, decide_eq_true hq1⟩

/-- C3 (counterexample): the claim says the cumulative-return series is
exactly 0 at its first date, also after alignment to the common index.  With
portfolio prices [100, 110, 121] on dates 0, 1, 2 and a benchmark that only
starts at date 1, the portfolio's first aligned cumulative value is 0.1. -/
theorem c3_first_value_zero_refuted :
    ((portfolioPipeline (denseTable [((0 : ℤ), [(100 : ℚ)]), (1, [110]), (2, [121])])
        [((1 : ℤ), (50 : ℚ)), (2, 55)]).1.head?).map Prod.snd = some (1 / 10)
    ∧ some ((1 : ℚ) / 10) ≠ some (0 : ℚ) := by
  constructor
  · norm_num [portfolioPipeline, denseTable, dropnaT, ffillT, ffillAux, fillCell, pctT,
      pctAux, pctCell, meanRows, rowMean, pctSeries, pctSeriesAux, alignTo, fillna0,
      cumret, cumretAux, List.filterMap, List.filter, List.zipWith]
  · norm_num

/-- C3 (amended): the cumulative-return series starts at exactly 0 whenever
the portfolio table and the benchmark series begin on the same date (both for
the portfolio and the benchmark series); when one series starts strictly
earlier, its first aligned value is a raw return and need not be 0. -/
theorem c3_first_value_zero_when_same_start (t : List (ℤ × List ℚ))
    (b : List (ℤ × ℚ)) (w : ℕ) (hw : ∀ r ∈ t, r.2.length = w)
    (ht : t ≠ []) (hb : b ≠ [])
    (hhead : (t.map Prod.fst).head? = (b.map Prod.fst).head?) :
    ((portfolioPipeline (denseTable t) b).1.head?).map Prod.snd = some 0 ∧
    ((portfolioPipeline (denseTable t) b).2.head?).map Prod.snd = some 0 := by
  cases t with
  | nil => exact absurd rfl ht
  | cons pt t' =>
  cases b with
  | nil => exact absurd rfl hb
  | cons pb b' =>
  obtain ⟨d, r⟩ := pt
  obtain ⟨d2, v⟩ := pb
  have hd : d = d2 := by simpa using hhead
  subst hd
  have hproc : dropnaT (ffillT (denseTable ((d, r) :: t'))) = denseTable ((d, r) :: t') := by
    rw [ffill_dense _ w hw, dropna_dense]
  simp only [portfolioPipeline, hproc]
  rw [denseTable_cons,
    show pctT ((d, r.map some) :: denseTable t')
      = (d, (r.map some).map (fun _ => (none : Option ℚ)))
          :: pctAux (r.map some) (denseTable t') from rfl,
    meanRows_cons, rowMean_map_none,
    show pctSeries ((d, v) :: b') = (d, (none : Option ℚ)) :: pctSeriesAux v b' from rfl,
    alignTo_cons_of_headmem _ d _ _ (by simp),
    alignTo_cons_of_headmem _ d _ _ (by simp),
    fillna0_cons, fillna0_cons]
  norm_num [cumret, cumretAux]

/-- Witness for C3 (amended): a two-row table and a benchmark sharing the
first date. -/
theorem c3_first_value_zero_when_same_start_witness :
    ((portfolioPipeline (denseTable [((0 : ℤ), [(100 : ℚ)]), (1, [110])])
        [((0 : ℤ), (50 : ℚ)), (1, 60)]).1.head?).map Prod.snd = some 0 ∧
    ((portfolioPipeline (denseTable [((0 : ℤ), [(100 : ℚ)]), (1, [110])])
        [((0 : ℤ), (50 : ℚ)), (1, 60)]).2.head?).map Prod.snd = some 0 :=
  c3_first_value_zero_when_same_start [((0 : ℤ), [(100 : ℚ)]), (1, [110])]
    [((0 : ℤ), (50 : ℚ)), (1, 60)] 1 (by simp) (by simp) (by simp) (by simp)

/-! ### Claim C7: a single-symbol portfolio -/

theorem rowMean_single (x : ℚ) : rowMean [some x] = some x := by
  simp [rowMean]

theorem meanList_single (x : ℚ) : meanList [x] = x := by
  simp [meanList]

theorem meanRows_pctAux_onecol :
    ∀ (rest : List (ℤ × ℚ)) (prev : ℚ),
      meanRows (pctAux [some prev] (onecolT rest)) = pctSeriesAux prev rest
  | [], _ => rfl
  | (d, v) :: rest, prev => by
    rw [show onecolT ((d, v) :: rest) = (d, [some v]) :: onecolT rest from rfl,
      show pctAux [some prev] ((d, [some v]) :: onecolT rest)
        = (d, List.zipWith pctCell [some prev] [some v]) :: pctAux [some v] (onecolT rest)
          from rfl,
      meanRows_cons,
      show List.zipWith pctCell [some prev] [some v] = [some (v / prev - 1)] from rfl,
      rowMean_single,
      show pctSeriesAux prev ((d, v) :: rest)
        = (d, some (v / prev - 1)) :: pctSeriesAux v rest from rfl]
    exact congrArg _ (meanRows_pctAux_onecol rest v)

theorem meanRows_pctT_onecol (l : List (ℤ × ℚ)) :
    meanRows (pctT (onecolT l)) = pctSeries l := by
  cases l with
  | nil => rfl
  | cons p rest =>
    obtain ⟨d, v⟩ := p
    rw [show onecolT ((d, v) :: rest) = (d, [some v]) :: onecolT rest from rfl,
      show pctT ((d, [some v]) :: onecolT rest)
        = (d, [(none : Option ℚ)]) :: pctAux [some v] (onecolT rest) from rfl,
      meanRows_cons,
      show rowMean [(none : Option ℚ)] = none from by simp [rowMean],
      show pctSeries ((d, v) :: rest) = (d, (none : Option ℚ)) :: pctSeriesAux v rest from rfl]
    exact congrArg _ (meanRows_pctAux_onecol rest v)

theorem tele_prod :
    ∀ (qs : List ℚ) (prev : ℚ), prev ≠ 0 → (∀ q ∈ qs, q ≠ 0) →
      ∀ i, i ≤ qs.length →
        (((dayMeansAux [prev] (qs.map (fun x => [x]))).take i).map (fun r => 1 + r)).prod
          = (prev :: qs).getD i 1 / prev
  | _, prev, hprev, _, 0, _ => by simp [div_self hprev]
  | [], _, _, _, i + 1, hi => by simp at hi
  | q :: rest, prev, hprev, hqs, i + 1, hi => by
    have hq : q ≠ 0 := hqs q (List.mem_cons_self _ _)
    have ih := tele_prod rest q hq (fun x hx => hqs x (List.mem_cons_of_mem _ hx)) i
      (by simpa using hi)
    rw [show dayMeansAux [prev] (((q :: rest)).map (fun x => [x]))
        = meanList (ratios [prev] [q]) :: dayMeansAux [q] (rest.map (fun x => [x]))
          from rfl,
      show ratios [prev] [q] = [q / prev - 1] from rfl, meanList_single,
      List.take_succ_cons, List.map_cons, List.prod_cons, ih,
      show (prev :: q :: rest).getD (i + 1) 1 = (q :: rest).getD i 1 from rfl]
    have h1 : 1 + (q / prev - 1) = q / prev := by ring
    rw [h1]
    field_simp
    ring

theorem getD_map_snd (l : List (ℤ × ℚ)) (i : ℕ) (hi : i < l.length) :
    (l.map Prod.snd).getD i 1 = (l.getD i (0, 1)).2 := by
  rw [List.getD_eq_getElem?_getD, List.getD_eq_getElem?_getD, List.getElem?_map,
    List.getElem?_eq_getElem hi]
  rfl

theorem onecolT_eq_dense (l : List (ℤ × ℚ)) :
    onecolT l = denseTable (l.map (fun p => (p.1, [p.2]))) := by
  simp [onecolT, denseTable, List.map_map]

theorem retList_onecol_snd (d0 : ℤ) (p0 : ℚ) (rest : List (ℤ × ℚ)) :
    (retList (((d0, p0) :: rest).map (fun p => (p.1, [p.2])))).map Prod.snd
      = 0 :: dayMeansAux [p0] ((rest.map Prod.snd).map (fun x => [x])) := by
  rw [retList_snd, List.map_map,
    show (Prod.snd ∘ fun p : ℤ × ℚ => (p.1, [p.2])) = (fun p : ℤ × ℚ => [p.2]) from rfl,
    show ((d0, p0) :: rest).map (fun p : ℤ × ℚ => [p.2])
      = [p0] :: rest.map (fun p : ℤ × ℚ => [p.2]) from rfl,
    show rest.map (fun p : ℤ × ℚ => [p.2]) = (rest.map Prod.snd).map (fun x => [x])
      from by rw [List.map_map]; rfl]
  rfl

theorem onecol_prod (d0 : ℤ) (p0 : ℚ) (rest : List (ℤ × ℚ)) (hp0 : p0 ≠ 0)
    (hrest : ∀ q ∈ rest.map Prod.snd, q ≠ 0) (i : ℕ) (hi : i ≤ rest.length) :
    (((retList (((d0, p0) :: rest).map (fun p => (p.1, [p.2])))).take (i + 1)).map
        (fun p => 1 + p.2)).prod = (p0 :: rest.map Prod.snd).getD i 1 / p0 := by
  rw [show (fun p : ℤ × ℚ => 1 + p.2) = ((fun r : ℚ => 1 + r) ∘ Prod.snd) from rfl,
    ← List.map_map, List.map_take, retList_onecol_snd, List.take_succ_cons,
    List.map_cons, List.prod_cons,
    tele_prod (rest.map Prod.snd) p0 hp0 hrest i (by rwa [List.length_map])]
  norm_num

/-- C7: on a one-symbol table the equal-weight combination of `src/h.py` is
the identity — `returns.mean(axis=1)` of the one-column table is exactly the
symbol's own `pct_change` series — and, with a benchmark over the same dates,
the downstream cumulative return at every index `i` equals the symbol's own
cumulative return `price(i) / price(0) - 1`. -/
theorem c7_single_symbol_identity (l b : List (ℤ × ℚ))
    (hpos : ∀ p ∈ l, 0 < p.2) (hd : l.map Prod.fst = b.map Prod.fst) :
    meanRows (pctT (onecolT l)) = pctSeries l ∧
    ∀ i, i < l.length →
      ((portfolioPipeline (onecolT l) b).1.getD i (0, 0)).2
        = (l.getD i (0, 1)).2 / (l.getD 0 (0, 1)).2 - 1 := by
  refine ⟨meanRows_pctT_onecol l, ?_⟩
  intro i hi
  have hp := pipeline_dense (l.map (fun p => (p.1, [p.2]))) b 1 (by norm_num)
    (by rintro r hr; rcases List.mem_map.mp hr with ⟨q, _, rfl⟩; rfl)
    (by rw [List.map_map]; exact hd)
  rw [onecolT_eq_dense, hp, cumret,
    cumretAux_getD_snd _ _ _ (by rw [retList_length, List.length_map]; exact hi), one_mul]
  cases l with
  | nil => simp at hi
  | cons p rest =>
  obtain ⟨d0, p0⟩ := p
  have hp0 : p0 ≠ 0 := ne_of_gt (hpos (d0, p0) (List.mem_cons_self _ _))
  have hrest : ∀ q ∈ rest.map Prod.snd, q ≠ 0 := by
    rintro q hq
    rcases List.mem_map.mp hq with ⟨x, hx, rfl⟩
    exact ne_of_gt (hpos x (List.mem_cons_of_mem _ hx))
  rw [onecol_prod d0 p0 rest hp0 hrest i
    (Nat.lt_succ_iff.mp (by simpa using hi))]
  have hfirst : ((((d0, p0) :: rest)).getD 0 ((0 : ℤ), (1 : ℚ))).2 = p0 := rfl
  have hsnd : (p0 :: rest.map Prod.snd).getD i 1
      = ((((d0, p0) :: rest)).getD i ((0 : ℤ), (1 : ℚ))).2 := by
    have := getD_map_snd ((d0, p0) :: rest) i hi
    simpa using this
  rw [hsnd, hfirst]

/-- Witness for C7 at a two-row single-symbol table with a same-dates
benchmark, at index 1. -/
theorem c7_single_symbol_identity_witness :
    meanRows (pctT (onecolT [((0 : ℤ), (100 : ℚ)), (1, 110)]))
      = pctSeries [((0 : ℤ), (100 : ℚ)), (1, 110)] ∧
    ((portfolioPipeline (onecolT [((0 : ℤ), (100 : ℚ)), (1, 110)])
        [((0 : ℤ), (1 : ℚ)), (1, 2)]).1.getD 1 (0, 0)).2
      = ([((0 : ℤ), (100 : ℚ)), (1, 110)].getD 1 (0, 1)).2
          / ([((0 : ℤ), (100 : ℚ)), (1, 110)].getD 0 (0, 1)).2 - 1 :=
  ⟨(c7_single_symbol_identity [((0 : ℤ), (100 : ℚ)), (1, 110)]
      [((0 : ℤ), (1 : ℚ)), (1, 2)] (by norm_num) (by simp)).1,
   (c7_single_symbol_identity [((0 : ℤ), (100 : ℚ)), (1, 110)]
      [((0 : ℤ), (1 : ℚ)), (1, 2)] (by norm_num) (by simp)).2 1 (by norm_num)⟩

/-! ### Claim C6: the missing-value policy `ffill().dropna()` -/

theorem getD_zipWith (f : Option ℚ → Option ℚ → Option ℚ) :
    ∀ (a b : List (Option ℚ)) (j : ℕ), j < a.length → j < b.length →
      (List.zipWith f a b).getD j none = f (a.getD j none) (b.getD j none)
  | [], _, j, ha, _ => by simp at ha
  | _ :: _, [], j, _, hb => by simp at hb
  | x :: a, y :: b, 0, _, _ => rfl
  | x :: a, y :: b, j + 1, ha, hb => by
    simp only [List.zipWith_cons_cons, List.getD_cons_succ]
    exact getD_zipWith f a b j (by simpa using ha) (by simpa using hb)

theorem cellAt_cons_zero (d : ℤ) (r : List (Option ℚ)) (rest : Table) (j : ℕ) :
    cellAt ((d, r) :: rest) 0 j = r.getD j none := rfl

theorem cellAt_cons_succ (p : ℤ × List (Option ℚ)) (rest : Table) (i j : ℕ) :
    cellAt (p :: rest) (i + 1) j = cellAt rest i j := rfl

theorem colAt_cons (d : ℤ) (r : List (Option ℚ)) (rest : Table) (j : ℕ) :
    colAt ((d, r) :: rest) j = r.getD j none :: colAt rest j := rfl

theorem lastKnown_cons (dflt a : Option ℚ) (l : List (Option ℚ)) :
    lastKnown dflt (a :: l) = lastKnown (fillCell dflt a) l := rfl

theorem ffillAux_cons (prev : List (Option ℚ)) (d : ℤ) (r : List (Option ℚ))
    (rest : Table) :
    ffillAux prev ((d, r) :: rest)
      = (d, List.zipWith fillCell prev r)
          :: ffillAux (List.zipWith fillCell prev r) rest := rfl

theorem ffillAux_widths (w : ℕ) :
    ∀ (rest : Table) (prev : List (Option ℚ)), prev.length = w →
      (∀ p ∈ rest, p.2.length = w) →
      ∀ p ∈ ffillAux prev rest, p.2.length = w
  | [], _, _, _, p, hp => by simp [ffillAux] at hp
  | (d, r) :: rest, prev, hprev, hw, p, hp => by
    have hr : r.length = w := hw (d, r) (List.mem_cons_self _ _)
    have hzip : (List.zipWith fillCell prev r).length = w := by
      rw [List.length_zipWith, hprev, hr, min_self]
    rw [ffillAux_cons] at hp
    rcases List.mem_cons.mp hp with h | h
    · rw [h]; exact hzip
    · exact ffillAux_widths w rest _ hzip
        (fun q hq => hw q (List.mem_cons_of_mem _ hq)) p h

theorem ffillT_widths (t : Table) (w : ℕ) (hw : ∀ p ∈ t, p.2.length = w) :
    ∀ p ∈ ffillT t, p.2.length = w := by
  cases t with
  | nil => intro p hp; simp [ffillT] at hp
  | cons q rest =>
    obtain ⟨d, r⟩ := q
    intro p hp
    have hr : r.length = w := hw (d, r) (List.mem_cons_self _ _)
    rw [show ffillT ((d, r) :: rest) = (d, r) :: ffillAux r rest from rfl] at hp
    rcases List.mem_cons.mp hp with h | h
    · rw [h]; exact hr
    · exact ffillAux_widths w rest r hr
        (fun q hq => hw q (List.mem_cons_of_mem _ hq)) p h

theorem ffillAux_length :
    ∀ (rest : Table) (prev : List (Option ℚ)),
      (ffillAux prev rest).length = rest.length
  | [], _ => rfl
  | (d, r) :: rest, prev => by
    rw [ffillAux_cons, List.length_cons, List.length_cons]
    exact congrArg _ (ffillAux_length rest _)

theorem ffillT_length (t : Table) : (ffillT t).length = t.length := by
  cases t with
  | nil => rfl
  | cons q rest =>
    obtain ⟨d, r⟩ := q
    rw [show ffillT ((d, r) :: rest) = (d, r) :: ffillAux r rest from rfl,
      List.length_cons, List.length_cons]
    exact congrArg _ (ffillAux_length rest r)

theorem ffillAux_cellAt (w : ℕ) :
    ∀ (rest : Table) (prev : List (Option ℚ)) (i j : ℕ),
      prev.length = w → (∀ p ∈ rest, p.2.length = w) → j < w → i < rest.length →
      cellAt (ffillAux prev rest) i j
        = lastKnown (prev.getD j none) ((colAt rest j).take (i + 1))
  | [], _, i, _, _, _, _, hi => by simp at hi
  | (d, r) :: rest, prev, 0, j, hprev, hw, hj, _ => by
    have hr : r.length = w := hw (d, r) (List.mem_cons_self _ _)
    rw [ffillAux_cons, cellAt_cons_zero, colAt_cons, List.take_succ_cons,
      List.take_zero, lastKnown_cons,
      getD_zipWith fillCell prev r j (by rw [hprev]; exact hj) (by rw [hr]; exact hj)]
    rfl
  | (d, r) :: rest, prev, i + 1, j, hprev, hw, hj, hi => by
    have hr : r.length = w := hw (d, r) (List.mem_cons_self _ _)
    have hzip : (List.zipWith fillCell prev r).length = w := by
      rw [List.length_zipWith, hprev, hr, min_self]
    rw [ffillAux_cons, cellAt_cons_succ,
      ffillAux_cellAt w rest _ i j hzip
        (fun q hq => hw q (List.mem_cons_of_mem _ hq)) hj (by simpa using hi),
      getD_zipWith fillCell prev r j (by rw [hprev]; exact hj) (by rw [hr]; exact hj),
      colAt_cons, List.take_succ_cons, lastKnown_cons]

theorem ffillT_cellAt (t : Table) (w : ℕ) (hw : ∀ p ∈ t, p.2.length = w)
    (i j : ℕ) (hj : j < w) (hi : i < t.length) :
    cellAt (ffillT t) i j = lastKnown none ((colAt t j).take (i + 1)) := by
  cases t with
  | nil => simp at hi
  | cons q rest =>
  obtain ⟨d, r⟩ := q
  have hr : r.length = w := hw (d, r) (List.mem_cons_self _ _)
  cases i with
  | zero =>
    rw [show ffillT ((d, r) :: rest) = (d, r) :: ffillAux r rest from rfl,
      cellAt_cons_zero, colAt_cons, List.take_succ_cons, List.take_zero,
      lastKnown_cons, fillCell_none_left]
    rfl
  | succ i =>
    rw [show ffillT ((d, r) :: rest) = (d, r) :: ffillAux r rest from rfl,
      cellAt_cons_succ,
      ffillAux_cellAt w rest r i j hr
        (fun q hq => hw q (List.mem_cons_of_mem _ hq)) hj (by simpa using hi),
      colAt_cons, List.take_succ_cons, lastKnown_cons, fillCell_none_left]

/-- C6: the missing-value treatment of line 143 (`ffill().dropna()`).
(1) Every cell that reaches the return computation is present (no `NaN` row
survives).  (2) After the forward fill, cell (i, j) holds the last known
value of column j at or before row i — so gaps inherit the prior price and
nothing is ever filled backward.  (3) Row i survives the drop exactly when
every column has some known value at or before row i — so rows inside a
leading gap of any symbol are dropped entirely. -/
theorem c6_missing_value_policy (t : Table) (w : ℕ)
    (hw : ∀ r ∈ t, r.2.length = w) :
    (∀ r ∈ dropnaT (ffillT t), ∀ c ∈ r.2, c.isSome = true) ∧
    (∀ i, i < t.length → ∀ j, j < w →
      cellAt (ffillT t) i j = lastKnown none ((colAt t j).take (i + 1))) ∧
    (∀ i, i < t.length →
      ((ffillT t).getD i (0, []) ∈ dropnaT (ffillT t) ↔
        ∀ j, j < w → (lastKnown none ((colAt t j).take (i + 1))).isSome = true)) := by
  refine ⟨?_, ?_, ?_⟩
  · intro r hr c hc
    exact List.all_eq_true.mp (List.mem_filter.mp hr).2 c hc
  · intro i hi j hj
    exact ffillT_cellAt t w hw i j hj hi
  · intro i hi
    have hlen : i < (ffillT t).length := by rw [ffillT_length]; exact hi
    have hmem : (ffillT t).getD i (0, []) ∈ ffillT t := by
      rw [List.getD_eq_getElem _ _ hlen]
      exact List.getElem_mem _
    have hrowlen : ((ffillT t).getD i (0, [])).2.length = w :=
      ffillT_widths t w hw _ hmem
    constructor
    · intro hmemf j hj
      have hpred := (List.mem_filter.mp hmemf).2
      have hj2 : j < ((ffillT t).getD i (0, [])).2.length := by
        rw [hrowlen]; exact hj
      have hsome := List.all_eq_true.mp hpred
        (((ffillT t).getD i (0, [])).2.getD j none)
        (by rw [List.getD_eq_getElem _ _ hj2]; exact List.getElem_mem _)
      rw [← ffillT_cellAt t w hw i j hj hi]
      exact hsome
    · intro hall
      rw [dropnaT, List.mem_filter]
      refine ⟨hmem, ?_⟩
      rw [List.all_eq_true]
      intro c hc
      rcases List.mem_iff_getElem.mp hc with ⟨j, hj, rfl⟩
      have hj2 : j < w := by rw [← hrowlen]; exact hj
      have hv := hall j hj2
      rw [← ffillT_cellAt t w hw i j hj2 hi] at hv
      rw [cellAt, List.getD_eq_getElem _ _ hj] at hv
      exact hv

/-- Witness for C6 at a table with an internal gap and a leading gap, checking
the forward-fill characterization at row 2, column 1. -/
theorem c6_missing_value_policy_witness :
    cellAt (ffillT [((0 : ℤ), [some (2 : ℚ), none]), (1, [none, some 3]),
        (2, [some 5, none])]) 2 1
      = lastKnown none
          ((colAt [((0 : ℤ), [some (2 : ℚ), none]), (1, [none, some 3]),
            (2, [some 5, none])] 1).take 3) :=
  (c6_missing_value_policy
      [((0 : ℤ), [some (2 : ℚ), none]), (1, [none, some 3]), (2, [some 5, none])] 2
      (by simp)).2.1 2 (by norm_num) 1 (by norm_num)

/-! ### Claim C10: duplicate (Date, Symbol) records and the pivot -/

theorem replicate_getD_none (w s : ℕ) :
    (List.replicate w (none : Option ℚ)).getD s none = none := by
  rw [List.getD_eq_getElem?_getD]
  rcases lt_or_ge s w with h | h
  · rw [List.getElem?_eq_getElem (by simpa using h)]
    simp
  · rw [List.getElem?_eq_none (by simpa using h)]
    rfl

theorem getCell_emptyTable (dates : List ℤ) (w : ℕ) (d : ℤ) (s : ℕ) :
    getCell (emptyTable dates w) d s = none := by
  rw [getCell, emptyTable, List.find?_map]
  cases List.find?
      ((fun p : ℤ × List (Option ℚ) => decide (p.1 = d)) ∘
        fun d => (d, List.replicate w (none : Option ℚ))) dates with
  | none => rfl
  | some x => simp [replicate_getD_none]

theorem emptyTable_fst (dates : List ℤ) (w : ℕ) :
    (emptyTable dates w).map Prod.fst = dates := by
  rw [emptyTable, List.map_map]
  exact List.map_id dates

theorem emptyTable_widths (dates : List ℤ) (w : ℕ) :
    ∀ p ∈ emptyTable dates w, p.2.length = w := by
  intro p hp
  rcases List.mem_map.mp hp with ⟨q, _, rfl⟩
  simp

theorem setCell_fst (t : Table) (d : ℤ) (s : ℕ) (v : ℚ) :
    (setCell t d s v).map Prod.fst = t.map Prod.fst := by
  rw [setCell, List.map_map]
  apply List.map_congr_left
  intro p _
  by_cases h : p.1 = d <;> simp [h]

theorem setCell_widths (t : Table) (d : ℤ) (s : ℕ) (v : ℚ) (w : ℕ)
    (hw : ∀ p ∈ t, p.2.length = w) :
    ∀ p ∈ setCell t d s v, p.2.length = w := by
  intro p hp
  rcases List.mem_map.mp hp with ⟨q, hq, rfl⟩
  by_cases h : q.1 = d <;> simp [h, hw q hq]

theorem getCell_setCell_ne (t : Table) (d' : ℤ) (s' : ℕ) (v : ℚ) (d : ℤ) (s : ℕ)
    (h : ¬(d = d' ∧ s = s')) :
    getCell (setCell t d' s' v) d s = getCell t d s := by
  rw [getCell, getCell, setCell, List.find?_map,
    show ((fun p : ℤ × List (Option ℚ) => decide (p.1 = d)) ∘
        fun p : ℤ × List (Option ℚ) =>
          if p.1 = d' then (p.1, p.2.set s' (some v)) else p)
      = fun p : ℤ × List (Option ℚ) => decide (p.1 = d) from by
        funext p
        by_cases hp : p.1 = d' <;> simp [hp]]
  cases hf : List.find? (fun p : ℤ × List (Option ℚ) => decide (p.1 = d)) t with
  | none => rfl
  | some q =>
    have hq1 : q.1 = d := by simpa using List.find?_some hf
    simp only [Option.map_some']
    by_cases hd : d = d'
    · have hs : s' ≠ s := fun hss => h ⟨hd, hss.symm⟩
      rw [if_pos (by rw [hq1, hd])]
      show (q.2.set s' (some v)).getD s none = q.2.getD s none
      rw [List.getD_eq_getElem?_getD, List.getD_eq_getElem?_getD,
        List.getElem?_set_ne hs]
    · rw [if_neg (by rw [hq1]; exact hd)]

theorem getCell_setCell_same (t : Table) (d : ℤ) (s : ℕ) (v : ℚ) (w : ℕ)
    (hd : d ∈ t.map Prod.fst) (hs : s < w) (hw : ∀ p ∈ t, p.2.length = w) :
    getCell (setCell t d s v) d s = some v := by
  have hex : ∃ q, List.find? (fun p : ℤ × List (Option ℚ) => decide (p.1 = d)) t
      = some q := by
    rcases List.mem_map.mp hd with ⟨q, hq, hq1⟩
    exact Option.isSome_iff_exists.mp
      (List.find?_isSome.mpr ⟨q, hq, decide_eq_true hq1⟩)
  rcases hex with ⟨q, hf⟩
  have hq1 : q.1 = d := by simpa using List.find?_some hf
  have hqmem : q ∈ t := List.mem_of_find?_eq_some hf
  rw [getCell, setCell, List.find?_map,
    show ((fun p : ℤ × List (Option ℚ) => decide (p.1 = d)) ∘
        fun p : ℤ × List (Option ℚ) =>
          if p.1 = d then (p.1, p.2.set s (some v)) else p)
      = fun p : ℤ × List (Option ℚ) => decide (p.1 = d) from by
        funext p
        by_cases hp : p.1 = d <;> simp [hp],
    hf]
  simp only [Option.map_some']
  rw [if_pos hq1]
  show (q.2.set s (some v)).getD s none = some v
  rw [List.getD_eq_getElem?_getD,
    List.getElem?_set_eq_of_lt (some v) (by rw [hw q hqmem]; exact hs)]
  rfl

theorem lastClose_nil (d : ℤ) (s : ℕ) : lastClose [] d s = none := rfl

theorem pivotFold_getCell (d : ℤ) (s : ℕ) (w : ℕ) (hs : s < w) :
    ∀ (rows : List Row) (t0 : Table),
      (∀ p ∈ t0, p.2.length = w) → d ∈ t0.map Prod.fst →
      getCell (rows.foldl (fun t r => setCell t r.1 r.2.1 r.2.2) t0) d s
        = fillCell (getCell t0 d s) (lastClose rows d s)
  | [], t0, _, _ => by
    rw [List.foldl_nil, lastClose_nil, fillCell_none_right]
  | r :: rest, t0, hw, hd => by
    rw [List.foldl_cons,
      pivotFold_getCell d s w hs rest (setCell t0 r.1 r.2.1 r.2.2)
        (setCell_widths t0 r.1 r.2.1 r.2.2 w hw) (by rw [setCell_fst]; exact hd)]
    by_cases hm : r.1 = d ∧ r.2.1 = s
    · obtain ⟨h1, h2⟩ := hm
      have hsame : getCell (setCell t0 r.1 r.2.1 r.2.2) d s = some r.2.2 := by
        rw [h1, h2]
        exact getCell_setCell_same t0 d s r.2.2 w hd hs hw
      have hfilter : (r :: rest).filter (fun x => decide (x.1 = d ∧ x.2.1 = s))
          = r :: rest.filter (fun x => decide (x.1 = d ∧ x.2.1 = s)) :=
        List.filter_cons_of_pos (decide_eq_true ⟨h1, h2⟩)
      cases hlast : lastClose rest d s with
      | none =>
        have hempty : rest.filter (fun x => decide (x.1 = d ∧ x.2.1 = s)) = [] := by
          rw [lastClose] at hlast
          rcases Option.map_eq_none'.mp hlast with hnone
          exact List.getLast?_eq_none_iff.mp hnone
        rw [fillCell_none_right, hsame, lastClose, hfilter, hempty]
        rfl
      | some v =>
        have hne : rest.filter (fun x => decide (x.1 = d ∧ x.2.1 = s)) ≠ [] := by
          intro hempty
          rw [lastClose, hempty] at hlast
          simp at hlast
        have : lastClose (r :: rest) d s = some v := by
          rw [lastClose, hfilter]
          cases hrf : rest.filter (fun x => decide (x.1 = d ∧ x.2.1 = s)) with
          | nil => exact absurd hrf hne
          | cons y ys =>
            rw [List.getLast?_cons_cons]
            rw [lastClose, hrf] at hlast
            exact hlast
        rw [this]
        rfl
    · have hne2 : getCell (setCell t0 r.1 r.2.1 r.2.2) d s = getCell t0 d s :=
        getCell_setCell_ne t0 r.1 r.2.1 r.2.2 d s
          (fun hcon => hm ⟨hcon.1.symm, hcon.2.symm⟩)
      have hfilter : (r :: rest).filter (fun x => decide (x.1 = d ∧ x.2.1 = s))
          = rest.filter (fun x => decide (x.1 = d ∧ x.2.1 = s)) :=
        List.filter_cons_of_neg (by simpa using hm)
      rw [hne2]
      congr 1
      rw [lastClose, lastClose, hfilter]

theorem pivotLast_getCell (dates : List ℤ) (w : ℕ) (rows : List Row) (d : ℤ)
    (s : ℕ) (hd : d ∈ dates) (hs : s < w) :
    getCell (pivotLast dates w rows) d s = lastClose rows d s := by
  rw [pivotLast,
    pivotFold_getCell d s w hs rows (emptyTable dates w)
      (emptyTable_widths dates w) (by rw [emptyTable_fst]; exact hd),
    getCell_emptyTable, fillCell_none_left]

theorem dupFilter_eq (rows : List Row) (r : Row) :
    rows.filter (fun r2 => decide (r2.1 = r.1 ∧ r2.2.1 = r.2.1))
      = rows.filter (fun r2 => decide (keyOf r2 = keyOf r)) := by
  apply List.filter_congr
  intro x _
  apply decide_eq_decide.mpr
  constructor
  · rintro ⟨h1, h2⟩
    show (x.1, x.2.1) = (r.1, r.2.1)
    rw [h1, h2]
  · intro h
    exact ⟨congrArg (Prod.fst : ℤ × ℕ → ℤ) h, congrArg (Prod.snd : ℤ × ℕ → ℕ) h⟩

theorem filter_eq_nil_of_not_mem (l : List (ℤ × ℕ)) (b : ℤ × ℕ) (h : b ∉ l) :
    l.filter (fun x => decide (x = b)) = [] := by
  rw [List.filter_eq_nil_iff]
  intro a ha
  simp only [decide_eq_true_eq]
  exact fun hab => h (hab ▸ ha)

theorem nodup_iff_no2 :
    ∀ (l : List (ℤ × ℕ)),
      l.Nodup ↔ ∀ a ∈ l, (l.filter (fun x => decide (x = a))).length ≤ 1
  | [] => by simp
  | b :: l => by
    rw [List.nodup_cons, nodup_iff_no2 l]
    constructor
    · rintro ⟨hb, hl⟩ a ha
      rcases List.mem_cons.mp ha with rfl | ha2
      · rw [List.filter_cons_of_pos (by simp), filter_eq_nil_of_not_mem l a hb]
        simp
      · have hba : b ≠ a := fun hcon => hb (hcon ▸ ha2)
        rw [List.filter_cons_of_neg (by simp [hba])]
        exact hl a ha2
    · intro h
      constructor
      · intro hbmem
        have h2 := h b (List.mem_cons_self _ _)
        rw [List.filter_cons_of_pos (by simp)] at h2
        have h3 : l.filter (fun x => decide (x = b)) ≠ [] := by
          intro hnil
          have hmem2 : b ∈ l.filter (fun x => decide (x = b)) :=
            List.mem_filter.mpr ⟨hbmem, by simp⟩
          rw [hnil] at hmem2
          simp at hmem2
        have h4 : 0 < (l.filter (fun x => decide (x = b))).length :=
          List.length_pos.mpr h3
        simp only [List.length_cons] at h2
        omega
      · intro a ha
        have h2 := h a (List.mem_cons_of_mem _ ha)
        by_cases hba : b = a
        · rw [List.filter_cons_of_pos (by simp [hba])] at h2
          simp only [List.length_cons] at h2
          omega
        · rw [List.filter_cons_of_neg (by simp [hba])] at h2
          exact h2

theorem hasDupKey_iff (rows : List Row) :
    hasDupKey rows = true ↔ ¬ (rows.map keyOf).Nodup := by
  rw [hasDupKey, List.any_eq_true, nodup_iff_no2]
  have hlink : ∀ r : Row,
      ((rows.map keyOf).filter (fun x => decide (x = keyOf r))).length
        = (rows.filter (fun r2 => decide (keyOf r2 = keyOf r))).length := by
    intro r
    rw [List.filter_map, List.length_map]
    rfl
  constructor
  · rintro ⟨r, hr, hdec⟩ hall
    have h2 := of_decide_eq_true hdec
    rw [dupFilter_eq rows r, ← hlink r] at h2
    have h3 := hall (keyOf r) (List.mem_map_of_mem keyOf hr)
    omega
  · intro hnall
    rcases not_forall.mp hnall with ⟨a, ha⟩
    rcases Classical.not_imp.mp ha with ⟨hmem, hlen⟩
    rcases List.mem_map.mp hmem with ⟨r, hr, rfl⟩
    refine ⟨r, hr, decide_eq_true ?_⟩
    rw [dupFilter_eq rows r, ← hlink r]
    omega

/-- C10: duplicate (Date, Symbol) rows do not make the pipeline fail.  The
warning of line 119 is emitted exactly when some (Date, Symbol) key occurs
more than once, and — whether or not duplicates exist — the table handed to
the return engine holds, at each date and symbol of its index, the close of
the last record carrying that pair (aggfunc='last'; one price per symbol per
date). -/
theorem c10_duplicates_last_price (dates : List ℤ) (w : ℕ) (rows : List Row)
    (d : ℤ) (s : ℕ) (hd : d ∈ dates) (hs : s < w) :
    ((buildCloseTable dates w rows).1 ≠ [] ↔ ¬ (rows.map keyOf).Nodup) ∧
    getCell (buildCloseTable dates w rows).2 d s = lastClose rows d s := by
  constructor
  · rw [buildCloseTable]
    by_cases h : hasDupKey rows
    · rw [if_pos h]
      exact iff_of_true (by simp) ((hasDupKey_iff rows).mp h)
    · rw [if_neg h]
      exact iff_of_false (by simp)
        (fun hcon => hcon (of_not_not
          (fun hnn => h ((hasDupKey_iff rows).mpr hnn))))
  · show getCell (pivotLast dates w rows) d s = lastClose rows d s
    exact pivotLast_getCell dates w rows d s hd hs

/-- Witness for C10 on records with a duplicated (date 0, symbol 0) pair. -/
theorem c10_duplicates_last_price_witness :
    ((buildCloseTable [(0 : ℤ), 1] 1
        [((0 : ℤ), 0, (100 : ℚ)), (0, 0, 105), (1, 0, 110)]).1 ≠ [] ↔
      ¬ (([((0 : ℤ), 0, (100 : ℚ)), (0, 0, 105), (1, 0, 110)]).map keyOf).Nodup) ∧
    getCell (buildCloseTable [(0 : ℤ), 1] 1
        [((0 : ℤ), 0, (100 : ℚ)), (0, 0, 105), (1, 0, 110)]).2 0 0
      = lastClose [((0 : ℤ), 0, (100 : ℚ)), (0, 0, 105), (1, 0, 110)] 0 0 :=
  c10_duplicates_last_price [(0 : ℤ), 1] 1
    [((0 : ℤ), 0, (100 : ℚ)), (0, 0, 105), (1, 0, 110)] 0 0
    (by norm_num) (by norm_num)

/-! ### Claim C4: per-symbol fetch failures -/

theorem loadPortfolio_warnings :
    ∀ (rs : List FetchResult),
      (rs.filterMap
          (fun r => if r.isNone then some "SymbolDataMissing" else none)).length
        = (rs.filter (fun r => r.isNone)).length
  | [] => rfl
  | r :: rest => by
    have ih := loadPortfolio_warnings rest
    cases r <;> simp [List.filterMap_cons, List.filter_cons] <;> simpa using ih

/-- C4: every failed per-symbol fetch yields one warning and is dropped while
the remaining symbols are kept in order, and the invocation degenerates to
the DataUnavailable error exactly when every fetch failed. -/
theorem c4_per_symbol_failure_recovery (rs : List FetchResult) :
    ((loadPortfolio rs).2 = Except.error "DataUnavailable" ↔ ∀ r ∈ rs, r = none) ∧
    ((∃ r ∈ rs, r ≠ none) → (loadPortfolio rs).2 = Except.ok (rs.filterMap id)) ∧
    (loadPortfolio rs).1.length = (rs.filter (fun r => r.isNone)).length := by
  refine ⟨?_, ?_, loadPortfolio_warnings rs⟩
  · show (if (rs.filterMap id).isEmpty then
        (Except.error "DataUnavailable" : Except String (List (List (ℤ × ℚ))))
      else Except.ok (rs.filterMap id)) = Except.error "DataUnavailable" ↔ _
    by_cases h : (rs.filterMap id).isEmpty
    · rw [if_pos h]
      refine iff_of_true rfl ?_
      intro r hr
      have hnil : rs.filterMap id = [] := List.isEmpty_iff.mp h
      have := List.filterMap_eq_nil_iff.mp hnil r hr
      simpa using this
    · rw [if_neg h]
      refine iff_of_false (by simp) ?_
      intro hall
      apply h
      apply List.isEmpty_iff.mpr
      apply List.filterMap_eq_nil_iff.mpr
      intro r hr
      simpa using hall r hr
  · rintro ⟨r, hr, hrne⟩
    show (if (rs.filterMap id).isEmpty then
        (Except.error "DataUnavailable" : Except String (List (List (ℤ × ℚ))))
      else Except.ok (rs.filterMap id)) = Except.ok (rs.filterMap id)
    rcases Option.ne_none_iff_exists.mp hrne with ⟨v, rfl⟩
    have hmem : v ∈ rs.filterMap id := List.mem_filterMap.mpr ⟨some v, hr, rfl⟩
    have hne : rs.filterMap id ≠ [] := List.ne_nil_of_mem hmem
    rw [if_neg (fun hcon => hne (List.isEmpty_iff.mp hcon))]

/-- Witness for C4: one failed fetch next to one successful fetch. -/
theorem c4_per_symbol_failure_recovery_witness :
    (loadPortfolio [none, some [((0 : ℤ), (100 : ℚ))]]).2
      = Except.ok [[((0 : ℤ), (100 : ℚ))]] ∧
    (loadPortfolio [none, some [((0 : ℤ), (100 : ℚ))]]).1.length = 1 :=
  ⟨(c4_per_symbol_failure_recovery [none, some [((0 : ℤ), (100 : ℚ))]]).2.1
      ⟨some [((0 : ℤ), (100 : ℚ))], by simp, by simp⟩,
   by
    rw [(c4_per_symbol_failure_recovery [none, some [((0 : ℤ), (100 : ℚ))]]).2.2]
    rfl⟩

/-! ### Claim C5: start date after end date -/

/-- C5 (counterexample): with start 5 > end 3 and successful fetches, the run
still computes the backtest; the InvalidRange error is merely displayed. -/
theorem c5_start_after_end_still_runs :
    (runApp 5 3 [some [((0 : ℤ), (100 : ℚ)), (1, 110)]]
        (some [((0 : ℤ), (50 : ℚ)), (1, 55)])).errors = ["InvalidRange"] ∧
    ((runApp 5 3 [some [((0 : ℤ), (100 : ℚ)), (1, 110)]]
        (some [((0 : ℤ), (50 : ℚ)), (1, 55)])).backtest).isSome = true := by
  norm_num [runApp, loadPortfolio, tagRows, sortDedup, insertSorted, buildCloseTable,
    hasDupKey, keyOf, pivotLast, emptyTable, setCell, portfolioPipeline, dropnaT,
    ffillT, ffillAux, fillCell, pctT, pctAux, pctCell, meanRows, rowMean, pctSeries,
    pctSeriesAux, alignTo, fillna0, cumret, cumretAux, List.filterMap, List.filter,
    List.zipWith, List.enum]

/-- C5 (amended): when start > end the run does display the InvalidRange
error, but the invocation is not terminated: the computed backtest is
identical to that of a run with a valid date range over the same fetched
data. -/
theorem c5_invalid_range_only_warns (s e : ℤ) (fetches : List FetchResult)
    (bench : FetchResult) (h : e < s) :
    "InvalidRange" ∈ (runApp s e fetches bench).errors ∧
    (runApp s e fetches bench).backtest = (runApp e e fetches bench).backtest := by
  cases hlp : loadPortfolio fetches with
  | mk ws r =>
    cases r with
    | error msg => simp [runApp, hlp, h, lt_irrefl]
    | ok datas =>
      cases bench with
      | none => simp [runApp, hlp, h, lt_irrefl]
      | some bser => simp [runApp, hlp, h, lt_irrefl]

/-- Witness for C5 (amended) at start 5, end 3. -/
theorem c5_invalid_range_only_warns_witness :
    "InvalidRange" ∈ (runApp 5 3 [some [((0 : ℤ), (100 : ℚ))]] none).errors ∧
    (runApp 5 3 [some [((0 : ℤ), (100 : ℚ))]] none).backtest
      = (runApp 3 3 [some [((0 : ℤ), (100 : ℚ))]] none).backtest :=
  c5_invalid_range_only_warns 5 3 [some [((0 : ℤ), (100 : ℚ))]] none (by norm_num)

/-! ### Claim C8: the zero-rate projection -/

/-- C8 (spec-modelled): with `annual_rate = 0` the projection reduces to
linear accumulation — for every period index `i ≤ n`,
`total(i) = initial + periodic_contribution * i`, equal to the principal, the
zero rate being handled by the internal branch of `fvTotal` rather than
surfacing an error. -/
theorem c8_zero_rate_linear (initial pc : ℚ) (ppy n i : ℕ) (hi : i < n + 1) :
    (project initial pc 0 ppy n).getD i (0, 0, 0)
      = (i, initial + pc * (i : ℚ), initial + pc * (i : ℚ)) := by
  rw [project, List.getD_eq_getElem?_getD, List.getElem?_map,
    List.getElem?_range hi]
  norm_num [fvTotal]

/-- Witness for C8 at initial 2, contribution 3, period index 2. -/
theorem c8_zero_rate_linear_witness :
    (project 2 3 0 5 4).getD 2 (0, 0, 0) = (2, 8, 8) := by
  have h := c8_zero_rate_linear 2 3 5 4 2 (by norm_num)
  norm_num at h
  exact h

/-! ### Claim C9: ticker-list normalization -/

/-- C9 (counterexample): line 68 strips whitespace and appends ".TW" but never
uppercases: on input " aapl" the script produces "aapl.TW" whereas the spec's
normalization (trim AND uppercase) gives "AAPL.TW". -/
theorem c9_no_uppercasing :
    symbolsList (String.toList " aapl") = [String.toList "aapl.TW"] ∧
    symbolsListSpec (String.toList " aapl") = [String.toList "AAPL.TW"] ∧
    symbolsList (String.toList " aapl") ≠ symbolsListSpec (String.toList " aapl") := by
  refine ⟨by decide, by decide, by decide⟩

theorem splitChar_ne_nil (c : Char) : ∀ (l : List Char), splitChar c l ≠ []
  | [] => by simp [splitChar]
  | a :: rest => by
    cases h : splitChar c rest with
    | nil => exact absurd h (splitChar_ne_nil c rest)
    | cons x t => by_cases hac : a = c <;> simp [splitChar, h, hac]

theorem map_replComma_eq_self (f : List Char) (h : '，' ∉ f) :
    f.map replComma = f := by
  induction f with
  | nil => rfl
  | cons a rest ih =>
    have ha : a ≠ '，' := fun hcon => h (hcon ▸ List.mem_cons_self _ _)
    rw [List.map_cons, ih (fun hm => h (List.mem_cons_of_mem _ hm)),
      show replComma a = a from by simp [replComma, ha]]

theorem splitChar_no_sep (c : Char) :
    ∀ (f : List Char), c ∉ f → splitChar c f = [f]
  | [], _ => rfl
  | a :: f, h => by
    have ha : a ≠ c := fun hcon => h (hcon ▸ List.mem_cons_self _ _)
    have ih := splitChar_no_sep c f (fun hm => h (List.mem_cons_of_mem _ hm))
    simp [splitChar, ih, ha]

theorem splitChar_append (c : Char) :
    ∀ (f rest : List Char), c ∉ f →
      splitChar c (f ++ c :: rest) = f :: splitChar c rest
  | [], rest, _ => by
    cases h : splitChar c rest with
    | nil => exact absurd h (splitChar_ne_nil c rest)
    | cons x t => simp [splitChar, h]
  | a :: f, rest, h => by
    have ha : a ≠ c := fun hcon => h (hcon ▸ List.mem_cons_self _ _)
    have ih := splitChar_append c f rest (fun hm => h (List.mem_cons_of_mem _ hm))
    simp [splitChar, ih, ha]

/-- C9 (amended): the normalization of line 68 splits on commas (a full-width
comma behaves exactly like an ASCII one), trims whitespace from each field and
appends the ".TW" venue suffix — with no case change. -/
theorem c9_trim_suffix_no_upper :
    (∀ fs : List (List Char), fs ≠ [] → (∀ f ∈ fs, ',' ∉ f ∧ '，' ∉ f) →
      symbolsList (joinWith ',' fs)
        = fs.map (fun f => trimChars f ++ ".TW".toList)) ∧
    (∀ a b : List Char, symbolsList (a ++ '，' :: b) = symbolsList (a ++ ',' :: b)) := by
  constructor
  · intro fs
    induction fs with
    | nil => intro h; exact absurd rfl h
    | cons f rest ih =>
      intro _ hall
      have hf := hall f (List.mem_cons_self _ _)
      cases rest with
      | nil =>
        rw [show joinWith ',' [f] = f from rfl, symbolsList,
          map_replComma_eq_self f hf.2, splitChar_no_sep ',' f hf.1]
      | cons g rest2 =>
        have ihr := ih (by simp) (fun x hx => hall x (List.mem_cons_of_mem _ hx))
        rw [symbolsList] at ihr
        rw [show joinWith ',' (f :: g :: rest2)
            = f ++ ',' :: joinWith ',' (g :: rest2) from rfl,
          symbolsList, List.map_append, map_replComma_eq_self f hf.2,
          show List.map replComma (',' :: joinWith ',' (g :: rest2))
            = ',' :: List.map replComma (joinWith ',' (g :: rest2)) from by
              rw [List.map_cons, show replComma ',' = ',' from by decide],
          splitChar_append ',' f _ hf.1, List.map_cons, List.map_cons, ihr]
  · intro a b
    have h1 : List.map replComma (a ++ '，' :: b)
        = List.map replComma a ++ ',' :: List.map replComma b := by
      rw [List.map_append, List.map_cons, show replComma '，' = ',' from by decide]
    have h2 : List.map replComma (a ++ ',' :: b)
        = List.map replComma a ++ ',' :: List.map replComma b := by
      rw [List.map_append, List.map_cons, show replComma ',' = ',' from by decide]
    rw [symbolsList, symbolsList, h1, h2]

/-- Witness for C9 (amended): two fields joined by a comma, and a full-width
comma behaving like an ASCII comma. -/
theorem c9_trim_suffix_no_upper_witness :
    symbolsList (joinWith ',' [String.toList " 2330 ", String.toList "2317"])
      = [String.toList " 2330 ", String.toList "2317"].map
          (fun f => trimChars f ++ ".TW".toList) ∧
    symbolsList (String.toList "2330" ++ '，' :: String.toList "2317")
      = symbolsList (String.toList "2330" ++ ',' :: String.toList "2317") :=
  ⟨c9_trim_suffix_no_upper.1 [String.toList " 2330 ", String.toList "2317"]
      (by simp) (by decide),
   c9_trim_suffix_no_upper.2 (String.toList "2330") (String.toList "2317")⟩

end Backtest
